import Mathlib

/-!
Verification of the hybrid OCR alignment core (`hybrid_aligner.py`).

The Python source is shallowly embedded below: strings are `List Char`,
Python floats are `ℚ`, Python lists are Lean lists, and the mutable loops
of `HybridAligner.align_text` are explicit structural recursions that
thread the loop state (`llm_search_idx`, `prev_box_idx`, `prev_llm_idx`,
`token_start`, `final_output`) as arguments.  Python slice semantics
(negative indices, clamping) are modelled by `pySlice`; Python's
`round` (banker's rounding) by `pyRound`.
-/

/-- A normalized axis-aligned rectangle `[x0, y0, x1, y1]` as used by the
aligner (`rect` lists in the Python source). -/
structure Rect where
  x0 : ℚ
  y0 : ℚ
  x1 : ℚ
  y1 : ℚ
deriving DecidableEq, Repr

/-- One detection: a rect plus its recognized text (a `(rect, text)` tuple). -/
abbrev Box := Rect × List Char

/-- ASCII model of Python `str.lower` on one character. -/
def toLowerChar (c : Char) : Char :=
  if 65 ≤ c.toNat ∧ c.toNat ≤ 90 then Char.ofNat (c.toNat + 32) else c

/-- Membership in Python's `string.punctuation`
(ASCII ranges 33–47, 58–64, 91–96, 123–126). -/
def isPunct (c : Char) : Bool :=
  decide ((33 ≤ c.toNat ∧ c.toNat ≤ 47) ∨ (58 ≤ c.toNat ∧ c.toNat ≤ 64) ∨
    (91 ≤ c.toNat ∧ c.toNat ≤ 96) ∨ (123 ≤ c.toNat ∧ c.toNat ≤ 126))

/-- Python `str.strip()`: drop leading and trailing whitespace. -/
def pyStrip (s : List Char) : List Char :=
  ((s.dropWhile Char.isWhitespace).reverse.dropWhile Char.isWhitespace).reverse

/-- `HybridAligner._clean_text`: `text.lower().strip()` then delete all
punctuation characters (`str.translate` with `string.punctuation`). -/
def cleanText (s : List Char) : List Char :=
  (pyStrip (s.map toLowerChar)).filter (fun c => !isPunct c)

/-- One pass of Python `str.split()` with no separator: the current
in-progress word is carried reversed in `acc`; whitespace runs close the
current word, empty pieces are discarded. -/
def wsSplitAux : List Char → List Char → List (List Char)
  | [], acc => if acc.isEmpty then [] else [acc.reverse]
  | c :: cs, acc =>
    if c.isWhitespace then
      if acc.isEmpty then wsSplitAux cs [] else acc.reverse :: wsSplitAux cs []
    else wsSplitAux cs (c :: acc)

/-- Python `str.split()` with no separator: split on whitespace runs,
discarding empty pieces. -/
def wsSplit (s : List Char) : List (List Char) := wsSplitAux s []

/-- Python `" ".join(l)`. -/
def joinSpace : List (List Char) → List Char
  | [] => []
  | w :: ws =>
    match ws with
    | [] => w
    | _ :: _ => w ++ ' ' :: joinSpace ws

/-- Fuel-indexed longest-common-subsequence recursion (structural on the
fuel so that concrete instances reduce inside the kernel; the fuel at the
top call always suffices). -/
def lcsFuel : Nat → List Char → List Char → Nat
  | 0, _, _ => 0
  | _ + 1, [], _ => 0
  | _ + 1, _ :: _, [] => 0
  | fuel + 1, a :: as, b :: bs =>
    if a = b then lcsFuel fuel as bs + 1
    else max (lcsFuel fuel (a :: as) bs) (lcsFuel fuel as (b :: bs))

/-- Length of a longest common subsequence of two character lists. -/
def lcs (a b : List Char) : Nat := lcsFuel (a.length + b.length) a b

/-- `rapidfuzz.fuzz.ratio`: the normalized indel similarity on a 0–100
scale, `100 * (1 - indel_distance/(|a|+|b|)) = 200 * lcs(a,b) / (|a|+|b|)`
(and `100` for two empty strings). -/
def fuzzScore (a b : List Char) : ℚ :=
  if a.length + b.length = 0 then 100
  else (200 * (lcs a b : ℚ)) / ((a.length : ℚ) + (b.length : ℚ))

/-- Accumulator pass of `rapidfuzz.process.extractOne`: keep the first
candidate achieving the maximum score (a later candidate replaces the
current best only when strictly better). -/
def extractOneAux (q : List Char) : List (List Char) → Nat → Option (ℚ × Nat) →
    Option (ℚ × Nat)
  | [], _, best => best
  | c :: cs, i, best =>
    let s := fuzzScore q c
    let best' := match best with
      | none => some (s, i)
      | some (bs, bi) => if s > bs then some (s, i) else some (bs, bi)
    extractOneAux q cs (i + 1) best'

/-- `rapidfuzz.process.extractOne(query, choices, scorer=fuzz.ratio)`,
returning `(score, index)` of the best choice (`none` iff no choices). -/
def extractOne (q : List Char) (choices : List (List Char)) : Option (ℚ × Nat) :=
  extractOneAux q choices 0 none

/-- `window_size = 100` in `align_text`. -/
def windowSize : Nat := 100

/-- The candidate window `llm_tokens[llm_search_idx : min(len, idx+window)]`. -/
def windowOf (tokens : List (List Char)) (searchIdx : Nat) : List (List Char) :=
  (tokens.take (min tokens.length (searchIdx + windowSize))).drop searchIdx

/-- An accepted anchor entry of the `matches` list (the `"type": "anchor"`
dicts built in step 1 of `align_text`). -/
structure Anchor where
  box_idx : Nat
  llm_idx : Nat
  text : List Char
  rect : Rect
deriving DecidableEq, Repr

/-- Step 1 of `align_text` (anchor identification): one pass over the
boxes threading the monotone cursor `llm_search_idx`. -/
def findAnchorsAux (tokens : List (List Char)) : List Box → Nat → Nat → List Anchor
  | [], _, _ => []
  | (rect, btext) :: rest, boxIdx, searchIdx =>
    if (pyStrip btext).isEmpty then findAnchorsAux tokens rest (boxIdx + 1) searchIdx
    else
      let cleanBox := cleanText btext
      if cleanBox.isEmpty then findAnchorsAux tokens rest (boxIdx + 1) searchIdx
      else
        let candidates := windowOf tokens searchIdx
        let cleanCandidates := candidates.map cleanText
        match extractOne cleanBox cleanCandidates with
        | none => findAnchorsAux tokens rest (boxIdx + 1) searchIdx
        | some (score, offset) =>
          if score > 80 then
            ⟨boxIdx, searchIdx + offset, candidates.getD offset [], rect⟩ ::
              findAnchorsAux tokens rest (boxIdx + 1) (searchIdx + offset + 1)
          else findAnchorsAux tokens rest (boxIdx + 1) searchIdx

/-- The Anchor Matcher: all accepted anchors, in box order. -/
def findAnchors (sd : List Box) (tokens : List (List Char)) : List Anchor :=
  findAnchorsAux tokens sd 0 0

/-- An entry of the `matches` list fed to the reconstruction loop.  The
Python dicts carry `text`/`rect` which are `None` exactly for the final
sentinel entry, so they are modelled as one optional `(rect, text)` payload. -/
structure MatchEntry where
  box_idx : Nat
  llm_idx : Nat
  payload : Option (Rect × List Char)
deriving DecidableEq, Repr

/-- Placeholder for `List.getLastD`; never reached because current rows
are nonempty by construction. -/
def defaultBox : Box := (⟨0, 0, 0, 0⟩, [])

/-- The "same visual line" test of the row grouping: vertical intersection
of the two rects strictly exceeds half the shorter height. -/
def sameLine (a b : Box) : Bool :=
  let inter := max 0 (min a.1.y1 b.1.y1 - max a.1.y0 b.1.y0)
  let minH := min (a.1.y1 - a.1.y0) (b.1.y1 - b.1.y0)
  decide (inter > minH * 0.5)

/-- Row grouping loop: each subsequent box is compared against the last
box added to the current row. -/
def groupRowsAux : List Box → List Box → List (List Box)
  | cur, [] => [cur]
  | cur, b :: bs =>
    if sameLine (cur.getLastD defaultBox) b then groupRowsAux (cur ++ [b]) bs
    else cur :: groupRowsAux [b] bs

/-- Row grouping of the gap boxes (step 2 of `align_text`, Case B). -/
def groupRows : List Box → List (List Box)
  | [] => []
  | b :: bs => groupRowsAux [b] bs

/-- `min` of a list of rationals (the list is nonempty at every use site,
mirroring Python `min`). -/
def listMin (l : List ℚ) : ℚ := l.foldl min (l.headD 0)

/-- `max` of a list of rationals (nonempty at every use site). -/
def listMax (l : List ℚ) : ℚ := l.foldl max (l.headD 0)

/-- Union width of a row: `max(x1 over row) - min(x0 over row)`. -/
def rowWidth (row : List Box) : ℚ :=
  listMax (row.map (fun b => b.1.x1)) - listMin (row.map (fun b => b.1.x0))

/-- `total_width`: the sum of the row widths. -/
def totalRowWidth (rows : List (List Box)) : ℚ := (rows.map rowWidth).sum

/-- Union rect of a row (min x0/y0, max x1/y1 over its boxes). -/
def unionRect (row : List Box) : Rect :=
  ⟨listMin (row.map (fun b => b.1.x0)), listMin (row.map (fun b => b.1.y0)),
   listMax (row.map (fun b => b.1.x1)), listMax (row.map (fun b => b.1.y1))⟩

/-- `if len(gap_text) > 50: gap_text += "\n"` (the wrap hint). -/
def wrapText (s : List Char) : List Char := if s.length > 50 then s ++ ['\n'] else s

/-- Python 3 `round` on an exact rational: round half to even. -/
def pyRound (q : ℚ) : ℤ :=
  let f := q.floor
  let frac := q - (f : ℚ)
  if frac < 0.5 then f
  else if 0.5 < frac then f + 1
  else if f % 2 = 0 then f else f + 1

/-- Convert a Python slice endpoint to a list position: negative indices
count from the end, and both ends clamp into `[0, len]`. -/
def pyBound (len : Nat) (i : ℤ) : Nat :=
  if i < 0 then ((len : ℤ) + i).toNat else min i.toNat len

/-- Python slice `l[a:b]`. -/
def pySlice {α : Type} (l : List α) (a b : ℤ) : List α :=
  (l.take (pyBound l.length b)).drop (pyBound l.length a)

/-- Python slice `l[a:]`. -/
def pySliceFrom {α : Type} (l : List α) (a : ℤ) : List α :=
  l.drop (pyBound l.length a)

/-- Token distribution over the rows (the `for i, row in enumerate(rows)`
loop of Case B), threading `token_start`.  The last row takes every
remaining token; a row whose computed count is zero is bumped to one
while unassigned tokens remain; if `total_width == 0` every row is given
the whole `gap_tokens` list. -/
def distRows (gapTokens : List (List Char)) (totalW : ℚ) :
    List (List Box) → ℤ → List (Rect × List Char)
  | [], _ => []
  | row :: rest, tokenStart =>
    if totalW = 0 then
      let chunk := gapTokens
      (if chunk.isEmpty then [] else [(unionRect row, wrapText (joinSpace chunk))]) ++
        distRows gapTokens totalW rest tokenStart
    else
      let count0 := pyRound ((gapTokens.length : ℚ) * (rowWidth row / totalW))
      let count := if count0 = 0 ∧ 0 < gapTokens.length ∧
          tokenStart < (gapTokens.length : ℤ) then 1 else count0
      if rest.isEmpty then
        let chunk := pySliceFrom gapTokens tokenStart
        if chunk.isEmpty then [] else [(unionRect row, wrapText (joinSpace chunk))]
      else
        let chunk := pySlice gapTokens tokenStart (tokenStart + count)
        (if chunk.isEmpty then [] else [(unionRect row, wrapText (joinSpace chunk))]) ++
          distRows gapTokens totalW rest (tokenStart + count)

/-- Case B of the gap reconstruction: group the gap boxes into rows and
distribute the gap tokens over them by row width. -/
def distributeGap (gapBoxes : List Box) (gapTokens : List (List Char)) :
    List (Rect × List Char) :=
  let rows := groupRows gapBoxes
  distRows gapTokens (totalRowWidth rows) rows 0

/-- Case C of the gap reconstruction: synthesize one box below the last
emitted element (or the fixed top-of-page rect when none exists) and
attach all gap tokens, space-joined. -/
def synthElem (acc : List (Rect × List Char)) (gapTokens : List (List Char)) :
    Rect × List Char :=
  let text := joinSpace gapTokens
  match acc.getLast? with
  | some (lastRect, _) =>
    let h0 := lastRect.y1 - lastRect.y0
    let h := if h0 < 0.02 then 0.02 else h0
    let y0 := lastRect.y1 + h * 0.2
    let y1 := y0 + h
    if y1 > 0.98 then (⟨0.05, max 0.9 (0.98 - h), 0.95, 0.98⟩, text)
    else (⟨0.05, y0, 0.95, y1⟩, text)
  | none => (⟨0, 0, 1, 0.1⟩, text)

/-- Step 2 of `align_text`: the reconstruction loop over the `matches`
list (anchors plus the final sentinel), threading `prev_llm_idx`,
`prev_box_idx` (both starting at `-1`) and the `final_output` accumulator. -/
def reconstructLoop (tokens : List (List Char)) (sd : List Box) :
    List MatchEntry → ℤ → ℤ → List (Rect × List Char) → List (Rect × List Char)
  | [], _, _, acc => acc
  | e :: rest, prevL, prevB, acc =>
    let gapTokens := pySlice tokens (prevL + 1) (e.llm_idx : ℤ)
    let gapBoxes := pySlice sd (prevB + 1) (e.box_idx : ℤ)
    let acc1 :=
      if !gapTokens.isEmpty then
        if !gapBoxes.isEmpty then acc ++ distributeGap gapBoxes gapTokens
        else acc ++ [synthElem acc gapTokens]
      else acc
    let acc2 := match e.payload with
      | some (r, t) => acc1 ++ [(r, t)]
      | none => acc1
    reconstructLoop tokens sd rest (e.llm_idx : ℤ) (e.box_idx : ℤ) acc2

/-- The `llm_text` argument of `align_text`: either a single string or a
list of line strings. -/
inductive LLMInput where
  | str : List Char → LLMInput
  | lines : List (List Char) → LLMInput

/-- Python truthiness test `not llm_text`. -/
def isFalsy : LLMInput → Bool
  | .str s => s.isEmpty
  | .lines ls => ls.isEmpty

/-- `full_llm_text`: join line lists with single spaces, pass strings through. -/
def fullTextOf : LLMInput → List Char
  | .str s => s
  | .lines ls => joinSpace ls

/-- `HybridAligner.align_text(structured_data, llm_text)`. -/
def alignText (sd : List Box) (llm : LLMInput) : List (Rect × List Char) :=
  if isFalsy llm then sd
  else
    let full := fullTextOf llm
    let tokens := wsSplit full
    if tokens.isEmpty then sd
    else
      let entries := (findAnchors sd tokens).map
          (fun a => ⟨a.box_idx, a.llm_idx, some (a.rect, a.text)⟩) ++
        [⟨sd.length, tokens.length, none⟩]
      let out := reconstructLoop tokens sd entries (-1) (-1) []
      if out.isEmpty && !sd.isEmpty then [(⟨0, 0, 1, 1⟩, full ++ ['\n'])]
      else out

/-- The token sequence carried by an output list: whitespace-split texts
of all elements, concatenated in output order. -/
def outTokens (out : List (Rect × List Char)) : List (List Char) :=
  (out.map (fun e => wsSplit e.2)).flatten

/-- Conversion of one raw EasyOCR detection `(bbox, text, conf)` plus the
image dimensions into a normalized `(rect, text)` pair (the body of the
`get_structured_text` loop). -/
def detToBox (imgW imgH : ℚ) (det : List (ℚ × ℚ) × List Char × ℚ) :
    Rect × List Char :=
  let xs := det.1.map Prod.fst
  let ys := det.1.map Prod.snd
  (⟨listMin xs / imgW, listMin ys / imgH, listMax xs / imgW, listMax ys / imgH⟩,
    det.2.1)

/-- `HybridAligner.get_structured_text`, with the EasyOCR call abstracted
into its result list: the append loop over raw detections. -/
def getStructuredText (results : List (List (ℚ × ℚ) × List Char × ℚ))
    (imgW imgH : ℚ) : List (Rect × List Char) :=
  results.foldl (fun acc det => acc ++ [detToBox imgW imgH det]) []

/-- The synthetic-box rect as worded by the spec (§4.4 Case C), written
independently of the source for comparison with `synthElem`:
`h = max(prevRect.y1 - prevRect.y0, 0.02)`, `y0 = prevRect.y1 + 0.2*h`,
`y1 = y0 + h`, clamped to `y1 = 0.98`, `y0 = max(0.9, y1 - h)` when
`y1 > 0.98`; fixed rect `[0.0, 0.0, 1.0, 0.1]` with no prior element. -/
def specSynthRect : Option Rect → Rect
  | some pr =>
    let h := max (pr.y1 - pr.y0) 0.02
    let y0 := pr.y1 + 0.2 * h
    let y1 := y0 + h
    if y1 > 0.98 then ⟨0.05, max 0.9 (0.98 - h), 0.95, 0.98⟩
    else ⟨0.05, y0, 0.95, y1⟩
  | none => ⟨0, 0, 1, 0.1⟩

/-- Specification predicate: a word contains no whitespace character. -/
def wsFree (w : List Char) : Prop := ∀ c ∈ w, c.isWhitespace = false

/-- Specification predicate: every word of a token list is nonempty and
whitespace-free (true of any output of `wsSplit`). -/
def tokensOk (ws : List (List Char)) : Prop := ∀ w ∈ ws, w ≠ [] ∧ wsFree w

/-- Specification predicate: a character list is empty or starts with a
whitespace character. -/
def wsBoundary (t : List Char) : Prop :=
  t = [] ∨ ∃ c t', t = c :: t' ∧ c.isWhitespace = true

/-- Specification predicate for the `matches` list fed to the
reconstruction loop, relative to the gap start `start`: the entries have
nondecreasing-by-gaps `llm_idx`, every non-final entry carries the token
at its `llm_idx` as payload, and the final entry is the sentinel at
`tokens.length` with no payload. -/
def entriesOk (tokens : List (List Char)) : Nat → List MatchEntry → Prop
  | _, [] => False
  | start, e :: rest =>
    match rest with
    | [] => e.llm_idx = tokens.length ∧ e.payload = none ∧ start ≤ tokens.length
    | _ :: _ => start ≤ e.llm_idx ∧ e.llm_idx < tokens.length ∧
        (∃ r, e.payload = some (r, tokens.getD e.llm_idx [])) ∧
        entriesOk tokens (e.llm_idx + 1) rest

/-! ## Helper lemmas -/

theorem groupRowsAux_flatten (bs : List Box) :
    ∀ cur, (groupRowsAux cur bs).flatten = cur ++ bs := by
  induction bs with
  | nil => intro cur; simp [groupRowsAux]
  | cons b bs ih =>
    intro cur
    simp only [groupRowsAux]
    split
    · simp [ih]
    · simp [ih]

theorem groupRows_flatten : ∀ bs : List Box, (groupRows bs).flatten = bs := by
  intro bs
  cases bs with
  | nil => simp [groupRows]
  | cons b bs => simp [groupRows, groupRowsAux_flatten]

theorem findAnchorsAux_bounds (tokens : List (List Char)) :
    ∀ (boxes : List Box) (boxIdx searchIdx : Nat) (a : Anchor),
      a ∈ findAnchorsAux tokens boxes boxIdx searchIdx →
      boxIdx ≤ a.box_idx ∧ searchIdx ≤ a.llm_idx := by
  intro boxes
  induction boxes with
  | nil => intro _ _ a h; simp [findAnchorsAux] at h
  | cons bx rest ih =>
    intro boxIdx searchIdx a h
    obtain ⟨rect, btext⟩ := bx
    simp only [findAnchorsAux] at h
    split at h
    · have := ih _ _ _ h
      exact ⟨Nat.le_of_succ_le this.1, this.2⟩
    · split at h
      · have := ih _ _ _ h
        exact ⟨Nat.le_of_succ_le this.1, this.2⟩
      · split at h
        · have := ih _ _ _ h
          exact ⟨Nat.le_of_succ_le this.1, this.2⟩
        · split at h
          · rcases List.mem_cons.1 h with h | h
            · subst h
              exact ⟨Nat.le_refl _, Nat.le_add_right _ _⟩
            · have := ih _ _ _ h
              exact ⟨Nat.le_of_succ_le this.1,
                le_trans (Nat.le_add_right _ _) (le_trans (Nat.le_succ _) this.2)⟩
          · have := ih _ _ _ h
            exact ⟨Nat.le_of_succ_le this.1, this.2⟩

/-! ## Claim theorems -/

/-- C1: for every input pair (detection boxes, content text), the anchor
sequence emitted by the Anchor Matcher is strictly increasing in both
`box_idx` and `llm_idx` between consecutive accepted anchors. -/
theorem C1_anchor_monotonicity (sd : List Box) (tokens : List (List Char)) :
    List.Chain' (fun a b : Anchor => a.box_idx < b.box_idx ∧ a.llm_idx < b.llm_idx)
      (findAnchors sd tokens) := by
  suffices key : ∀ (boxes : List Box) (bI sI : Nat),
      List.Chain' (fun a b : Anchor => a.box_idx < b.box_idx ∧ a.llm_idx < b.llm_idx)
        (findAnchorsAux tokens boxes bI sI) from key sd 0 0
  intro boxes
  induction boxes with
  | nil => intro bI sI; simp [findAnchorsAux]
  | cons bx rest ih =>
    intro bI sI
    obtain ⟨rect, btext⟩ := bx
    simp only [findAnchorsAux]
    split
    · exact ih _ _
    · split
      · exact ih _ _
      · split
        · exact ih _ _
        · split
          · refine List.chain'_cons'.2 ⟨?_, ih _ _⟩
            intro b hb
            have hmem := List.mem_of_mem_head? hb
            have hb2 := findAnchorsAux_bounds tokens rest _ _ b hmem
            exact ⟨Nat.lt_of_lt_of_le (Nat.lt_succ_self _) hb2.1,
              Nat.lt_of_lt_of_le (Nat.lt_succ_self _) hb2.2⟩
          · exact ih _ _

/-- C9: calling align with empty content (empty string or empty line
list, both falsy in Python) returns the detection boxes unchanged, with
no alignment attempted. -/
theorem C9_empty_content_passthrough (sd : List Box) :
    alignText sd (.str []) = sd ∧ alignText sd (.lines []) = sd := by
  constructor <;> simp [alignText, isFalsy]

/-- C10: for any content input whose whitespace-split token sequence is
empty (in particular a non-empty whitespace-only string), `align_text`
returns the detection list unchanged, exactly like the empty-content
passthrough. -/
theorem C10_tokenless_passthrough (sd : List Box) (inp : LLMInput)
    (h : wsSplit (fullTextOf inp) = []) : alignText sd inp = sd := by
  unfold alignText
  cases hf : isFalsy inp
  · simp [hf, h]
  · simp [hf]

/-- Witness for C10: a single-space (non-empty, truthy) content string
with a non-empty detection list passes through unchanged. -/
theorem C10_tokenless_passthrough_witness :
    alignText [(⟨0, 0, 1, 1⟩, ['h'])] (.str [' ']) = [(⟨0, 0, 1, 1⟩, ['h'])] :=
  C10_tokenless_passthrough [(⟨0, 0, 1, 1⟩, ['h'])] (.str [' ']) (by decide)

/-- C7: row grouping is a single left-to-right pass (it partitions the gap
boxes in order), a box joins the current row iff its vertical intersection
with the last box added exceeds half the shorter height, and on the
spec's concrete extents `[0.10,0.14]`, `[0.11,0.15]`, `[0.30,0.34]` the
first two group into one row while the third starts a new row. -/
theorem C7_row_grouping :
    (∀ bs : List Box, (groupRows bs).flatten = bs) ∧
    sameLine (⟨0, 0.10, 0.2, 0.14⟩, []) (⟨0, 0.11, 0.2, 0.15⟩, []) = true ∧
    sameLine (⟨0, 0.11, 0.2, 0.15⟩, []) (⟨0, 0.30, 0.2, 0.34⟩, []) = false ∧
    groupRows [(⟨0, 0.10, 0.2, 0.14⟩, []), (⟨0, 0.11, 0.2, 0.15⟩, []),
        (⟨0, 0.30, 0.2, 0.34⟩, [])] =
      [[(⟨0, 0.10, 0.2, 0.14⟩, []), (⟨0, 0.11, 0.2, 0.15⟩, [])],
        [(⟨0, 0.30, 0.2, 0.34⟩, [])]] := by
  refine ⟨groupRows_flatten, ?_, ?_, ?_⟩ <;> with_unfolding_all decide

/-- C4 (amended): the Box Extractor drops nothing.  Every raw detection —
including those with zero-area rects or empty text — yields exactly one
output box, converted by `detToBox`, and source order is preserved;
consequently the output length always equals the input length. -/
theorem C4_extractor_keeps_all (results : List (List (ℚ × ℚ) × List Char × ℚ))
    (imgW imgH : ℚ) :
    getStructuredText results imgW imgH = results.map (detToBox imgW imgH) ∧
    (getStructuredText results imgW imgH).length = results.length := by
  have key : ∀ (rs : List (List (ℚ × ℚ) × List Char × ℚ))
      (acc : List (Rect × List Char)),
      rs.foldl (fun acc det => acc ++ [detToBox imgW imgH det]) acc =
        acc ++ rs.map (detToBox imgW imgH) := by
    intro rs
    induction rs with
    | nil => intro acc; simp
    | cons d ds ih => intro acc; simp [List.foldl_cons, ih]
  have h1 : getStructuredText results imgW imgH = results.map (detToBox imgW imgH) := by
    simpa [getStructuredText] using key results []
  exact ⟨h1, by simp [h1]⟩

/-- C4 counterexample: a detection with a degenerate (zero-area) polygon
and empty recognized text is NOT dropped by the Box Extractor — it shows
up in the output, refuting the claim that such detections are filtered
out before alignment. -/
theorem C4_no_drop_counterexample :
    getStructuredText [([(2, 2), (2, 2), (2, 2), (2, 2)], [], 9/10)] 10 10
        = [(⟨1/5, 1/5, 1/5, 1/5⟩, [])] ∧
      ((1:ℚ)/5 - 1/5) * ((1:ℚ)/5 - 1/5) = 0 ∧
      getStructuredText [([(2, 2), (2, 2), (2, 2), (2, 2)], [], 9/10)] 10 10 ≠ [] := by
  refine ⟨?_, ?_, ?_⟩ <;> with_unfolding_all decide

theorem extractOneAux_idx_lt (q : List Char) :
    ∀ (cs : List (List Char)) (i : Nat) (best : Option (ℚ × Nat)),
      (∀ s0 j0, best = some (s0, j0) → j0 < i) →
      ∀ s j, extractOneAux q cs i best = some (s, j) → j < i + cs.length := by
  intro cs
  induction cs with
  | nil =>
    intro i best hb s j h
    simp only [extractOneAux] at h
    have := hb s j h
    omega
  | cons c cs ih =>
    intro i best hb s j h
    cases best with
    | none =>
      simp only [extractOneAux] at h
      have := ih (i + 1) (some (fuzzScore q c, i))
        (by intro s0 j0 he; injection he with he'; injection he' with h1 h2; omega) s j h
      simp only [List.length_cons]
      omega
    | some p =>
      obtain ⟨bs, bi⟩ := p
      have hbi := hb bs bi rfl
      simp only [extractOneAux] at h
      by_cases hgt : fuzzScore q c > bs
      · rw [if_pos hgt] at h
        have := ih (i + 1) (some (fuzzScore q c, i))
          (by intro s0 j0 he; injection he with he'; injection he' with h1 h2; omega) s j h
        simp only [List.length_cons]
        omega
      · rw [if_neg hgt] at h
        have := ih (i + 1) (some (bs, bi))
          (by intro s0 j0 he; injection he with he'; injection he' with h1 h2; omega) s j h
        simp only [List.length_cons]
        omega

theorem extractOne_idx_lt (q : List Char) (cs : List (List Char)) (s : ℚ) (j : Nat)
    (h : extractOne q cs = some (s, j)) : j < cs.length := by
  have := extractOneAux_idx_lt q cs 0 none (by intro s0 j0 he; cases he) s j h
  omega

/-- C6: for every box and its candidate window, the Anchor Matcher emits
an anchor for that box iff the best fuzzy-match score strictly exceeds
80; in particular a best score of exactly 80 produces no anchor while any
score above 80 produces one. -/
theorem C6_threshold_strict (tokens : List (List Char)) (rect : Rect) (btext : List Char)
    (rest : List Box) (boxIdx searchIdx : Nat) (score : ℚ) (offset : Nat)
    (hstrip : (pyStrip btext).isEmpty = false)
    (hclean : (cleanText btext).isEmpty = false)
    (hm : extractOne (cleanText btext) ((windowOf tokens searchIdx).map cleanText)
      = some (score, offset)) :
    (∃ a ∈ findAnchorsAux tokens ((rect, btext) :: rest) boxIdx searchIdx,
      a.box_idx = boxIdx) ↔ score > 80 := by
  have hgoal : findAnchorsAux tokens ((rect, btext) :: rest) boxIdx searchIdx =
      if score > 80 then
        ⟨boxIdx, searchIdx + offset, (windowOf tokens searchIdx).getD offset [], rect⟩ ::
          findAnchorsAux tokens rest (boxIdx + 1) (searchIdx + offset + 1)
      else findAnchorsAux tokens rest (boxIdx + 1) searchIdx := by
    simp only [findAnchorsAux, hstrip, hclean, hm, Bool.false_eq_true, if_false]
  rw [hgoal]
  by_cases hs : score > 80
  · rw [if_pos hs]
    constructor
    · intro _
      exact hs
    · intro _
      exact ⟨_, List.mem_cons_self _ _, rfl⟩
  · rw [if_neg hs]
    constructor
    · rintro ⟨a, ha, hbox⟩
      have hb := (findAnchorsAux_bounds tokens rest _ _ a ha).1
      omega
    · intro hs2
      exact absurd hs2 hs

set_option maxRecDepth 40000 in
/-- Witness for C6: the pair ("ab" vs token "abc") scores exactly 80 and
produces no anchor; the pair ("abc" vs token "abcd") scores 600/7 > 80
and produces one. -/
theorem C6_threshold_strict_witness :
    (¬ ∃ a ∈ findAnchorsAux ["abc".toList] [(⟨0, 0, 1, 1⟩, "ab".toList)] 0 0,
      a.box_idx = 0) ∧
    (∃ a ∈ findAnchorsAux ["abcd".toList] [(⟨0, 0, 1, 1⟩, "abc".toList)] 0 0,
      a.box_idx = 0) := by
  constructor
  · intro h
    have h80 := (C6_threshold_strict ["abc".toList] ⟨0, 0, 1, 1⟩ "ab".toList [] 0 0 80 0
      (by decide) (by decide) (by with_unfolding_all decide)).mp h
    exact absurd h80 (by with_unfolding_all decide)
  · exact (C6_threshold_strict ["abcd".toList] ⟨0, 0, 1, 1⟩ "abc".toList [] 0 0 (600/7) 0
      (by decide) (by decide) (by with_unfolding_all decide)).mpr
      (by with_unfolding_all decide)

theorem distRows_zero_width (gt : List (List Char)) (hgt : gt ≠ []) :
    ∀ (rows : List (List Box)) (ts : ℤ),
      distRows gt 0 rows ts =
        rows.map (fun row => (unionRect row, wrapText (joinSpace gt))) := by
  intro rows
  induction rows with
  | nil => intro ts; simp [distRows]
  | cons row rest ih =>
    intro ts
    have hne : gt.isEmpty = false := by
      cases gt with
      | nil => exact absurd rfl hgt
      | cons w ws => rfl
    simp only [distRows, if_pos rfl, hne, Bool.false_eq_true, if_false, List.map_cons]
    rw [ih ts]
    rfl

/-- C5 (amended): when the rows of a gap have zero total union width, the
division by zero is avoided, but the gap tokens are NOT routed to a single
row: every row receives the entire gap-token list, so one gap-row element
per row is emitted, each carrying all the gap tokens (duplicating them
when there is more than one row; the claimed behaviour holds only in the
one-row case). -/
theorem C5_zero_width_all_rows (gapBoxes : List Box) (gapTokens : List (List Char))
    (hgt : gapTokens ≠ []) (hw : totalRowWidth (groupRows gapBoxes) = 0) :
    distributeGap gapBoxes gapTokens =
      (groupRows gapBoxes).map
        (fun row => (unionRect row, wrapText (joinSpace gapTokens))) ∧
    (distributeGap gapBoxes gapTokens).length = (groupRows gapBoxes).length := by
  have h1 : distributeGap gapBoxes gapTokens =
      (groupRows gapBoxes).map
        (fun row => (unionRect row, wrapText (joinSpace gapTokens))) := by
    simp only [distributeGap]
    rw [hw]
    exact distRows_zero_width gapTokens hgt (groupRows gapBoxes) 0
  exact ⟨h1, by rw [h1, List.length_map]⟩

set_option maxRecDepth 40000 in
/-- C5 counterexample: a gap with two zero-width boxes on different lines
has two rows of total width zero; the code emits TWO gap-row elements,
each carrying ALL the gap tokens — not the single element the claim
requires. -/
theorem C5_zero_width_counterexample :
    distributeGap [(⟨1/2, 1/10, 1/2, 3/20⟩, ['z']), (⟨1/2, 3/10, 1/2, 7/20⟩, ['z'])]
        ["ab".toList, "cd".toList]
      = [(⟨1/2, 1/10, 1/2, 3/20⟩, "ab cd".toList),
         (⟨1/2, 3/10, 1/2, 7/20⟩, "ab cd".toList)] ∧
    totalRowWidth (groupRows [(⟨1/2, 1/10, 1/2, 3/20⟩, ['z']),
      (⟨1/2, 3/10, 1/2, 7/20⟩, ['z'])]) = 0 ∧
    (distributeGap [(⟨1/2, 1/10, 1/2, 3/20⟩, ['z']), (⟨1/2, 3/10, 1/2, 7/20⟩, ['z'])]
        ["ab".toList, "cd".toList]).length ≠ 1 := by
  refine ⟨?_, ?_, ?_⟩ <;> with_unfolding_all decide

set_option maxRecDepth 40000 in
/-- Witness for C5 at a one-row zero-width gap. -/
theorem C5_zero_width_all_rows_witness :
    distributeGap [(⟨1/2, 1/10, 1/2, 3/20⟩, ['z'])] ["ab".toList]
      = (groupRows [(⟨1/2, 1/10, 1/2, 3/20⟩, ['z'])]).map
          (fun row => (unionRect row, wrapText (joinSpace ["ab".toList]))) :=
  (C5_zero_width_all_rows [(⟨1/2, 1/10, 1/2, 3/20⟩, ['z'])] ["ab".toList]
    (by decide) (by with_unfolding_all decide)).1

theorem synthElem_eq_spec (acc : List (Rect × List Char)) (gt : List (List Char)) :
    synthElem acc gt = (specSynthRect (acc.getLast?.map Prod.fst), joinSpace gt) := by
  unfold synthElem specSynthRect
  cases h : acc.getLast? with
  | none => simp [h]
  | some pr =>
    obtain ⟨prRect, prText⟩ := pr
    simp only [h, Option.map_some']
    have hmax : (if prRect.y1 - prRect.y0 < 0.02 then (0.02 : ℚ)
        else prRect.y1 - prRect.y0) = max (prRect.y1 - prRect.y0) 0.02 := by
      rcases le_or_lt 0.02 (prRect.y1 - prRect.y0) with hle | hlt
      · rw [if_neg (not_lt.2 hle), max_eq_left hle]
      · rw [if_pos hlt, max_eq_right (le_of_lt hlt)]
    simp only [hmax, mul_comm (max (prRect.y1 - prRect.y0) 0.02) (0.2 : ℚ)]
    split <;> rfl

/-- C8: for a gap that has tokens but no boxes, the reconstruction loop
emits exactly one synthetic element carrying all gap tokens space-joined,
whose rect is the spec formula: below the previous element's rect with
height `max(prev height, 0.02)`, clamped at the page bottom, horizontal
extent `[0.05, 0.95]`; and the fixed rect `[0.0, 0.0, 1.0, 0.1]` when no
prior element exists. -/
theorem C8_synthetic_gap (tokens : List (List Char)) (sd : List Box)
    (e : MatchEntry) (rest : List MatchEntry) (prevL prevB : ℤ)
    (acc : List (Rect × List Char))
    (hgt : pySlice tokens (prevL + 1) (e.llm_idx : ℤ) ≠ [])
    (hgb : pySlice sd (prevB + 1) (e.box_idx : ℤ) = []) :
    reconstructLoop tokens sd (e :: rest) prevL prevB acc =
      reconstructLoop tokens sd rest (e.llm_idx : ℤ) (e.box_idx : ℤ)
        ((acc ++ [(specSynthRect (acc.getLast?.map Prod.fst),
          joinSpace (pySlice tokens (prevL + 1) (e.llm_idx : ℤ)))]) ++
          e.payload.toList) := by
  have h1 : (pySlice tokens (prevL + 1) (e.llm_idx : ℤ)).isEmpty = false := by
    cases hc : pySlice tokens (prevL + 1) (e.llm_idx : ℤ) with
    | nil => exact absurd hc hgt
    | cons w ws => rfl
  have h2 : (pySlice sd (prevB + 1) (e.box_idx : ℤ)).isEmpty = true := by
    rw [hgb]; rfl
  simp only [reconstructLoop, h1, h2, Bool.not_false, Bool.not_true, if_true,
    Bool.false_eq_true, if_false, synthElem_eq_spec]
  congr 1
  cases hp : e.payload with
  | none => simp
  | some p => obtain ⟨r, t⟩ := p; simp

/-- Witness for C8: one token, no boxes, no prior output — the loop emits
the single synthetic element with the no-prior-element default rect. -/
theorem C8_synthetic_gap_witness :
    reconstructLoop ["hi".toList] [] [⟨0, 1, none⟩] (-1) (-1) [] =
      reconstructLoop ["hi".toList] [] [] (((⟨0, 1, none⟩ : MatchEntry).llm_idx : ℤ))
        (((⟨0, 1, none⟩ : MatchEntry).box_idx : ℤ))
        ((([] : List (Rect × List Char)) ++
          [(specSynthRect (([] : List (Rect × List Char)).getLast?.map Prod.fst),
            joinSpace (pySlice ["hi".toList] ((-1 : ℤ) + 1)
              (((⟨0, 1, none⟩ : MatchEntry).llm_idx : ℤ))))]) ++
          (⟨0, 1, none⟩ : MatchEntry).payload.toList) :=
  C8_synthetic_gap ["hi".toList] [] ⟨0, 1, none⟩ [] (-1) (-1) []
    (by decide) (by decide)

theorem pyBound_natCast (len a : Nat) : pyBound len (a : ℤ) = min a len := by
  unfold pyBound
  rw [if_neg (by omega : ¬((a : ℤ) < 0))]
  simp

theorem take_min_length {α : Type} (l : List α) (b : Nat) :
    l.take (min b l.length) = l.take b := by
  rcases le_total b l.length with h | h
  · rw [min_eq_left h]
  · rw [min_eq_right h, List.take_length, List.take_of_length_le h]

theorem drop_min_of_le {α : Type} (m : List α) (a len : Nat) (h : m.length ≤ len) :
    m.drop (min a len) = m.drop a := by
  rcases le_total a len with hle | hle
  · rw [min_eq_left hle]
  · rw [min_eq_right hle, List.drop_eq_nil_of_le h,
      List.drop_eq_nil_of_le (le_trans h hle)]

theorem pySlice_natCast {α : Type} (l : List α) (a b : Nat) :
    pySlice l (a : ℤ) (b : ℤ) = (l.take b).drop a := by
  unfold pySlice
  rw [pyBound_natCast, pyBound_natCast, take_min_length,
    drop_min_of_le _ _ _ (by rw [List.length_take]; omega)]

theorem pySliceFrom_natCast {α : Type} (l : List α) (a : Nat) :
    pySliceFrom l (a : ℤ) = l.drop a := by
  unfold pySliceFrom
  rw [pyBound_natCast, drop_min_of_le _ _ _ le_rfl]

theorem pySlice_all {α : Type} (l : List α) :
    pySlice l ((-1 : ℤ) + 1) (l.length : ℤ) = l := by
  have h0 : ((-1 : ℤ) + 1) = ((0 : Nat) : ℤ) := by norm_num
  rw [h0, pySlice_natCast, List.take_length, List.drop_zero]

theorem pySlice_front_ne {α : Type} (l : List α) (hl : l ≠ []) (c : ℤ) (hc : 1 ≤ c) :
    pySlice l 0 c ≠ [] := by
  unfold pySlice pyBound
  rw [if_neg (by omega : ¬((0 : ℤ) < 0)), if_neg (by omega : ¬(c < 0))]
  have hlen : 1 ≤ l.length := List.length_pos.2 hl
  simp only [Int.toNat_zero, Nat.zero_min, List.drop_zero]
  intro hcon
  rcases List.take_eq_nil_iff.1 hcon with h | h
  · have : 1 ≤ c.toNat := by omega
    omega
  · exact hl h

theorem le_foldl_max (l : List ℚ) : ∀ a : ℚ, a ≤ l.foldl max a := by
  induction l with
  | nil => intro a; exact le_refl a
  | cons x xs ih => intro a; exact le_trans (le_max_left a x) (ih (max a x))

theorem mem_le_foldl_max (l : List ℚ) : ∀ (a x : ℚ), x ∈ l → x ≤ l.foldl max a := by
  induction l with
  | nil => intro a x h; cases h
  | cons y ys ih =>
    intro a x h
    rcases List.mem_cons.1 h with rfl | h
    · exact le_trans (le_max_right a x) (le_foldl_max ys (max a x))
    · exact ih (max a y) x h

theorem listMax_ge (l : List ℚ) (x : ℚ) (h : x ∈ l) : x ≤ listMax l :=
  mem_le_foldl_max l _ x h

theorem foldl_min_le (l : List ℚ) : ∀ a : ℚ, l.foldl min a ≤ a := by
  induction l with
  | nil => intro a; exact le_refl a
  | cons x xs ih => intro a; exact le_trans (ih (min a x)) (min_le_left a x)

theorem foldl_min_le_mem (l : List ℚ) : ∀ (a x : ℚ), x ∈ l → l.foldl min a ≤ x := by
  induction l with
  | nil => intro a x h; cases h
  | cons y ys ih =>
    intro a x h
    rcases List.mem_cons.1 h with rfl | h
    · exact le_trans (foldl_min_le ys (min a x)) (min_le_right a x)
    · exact ih (min a y) x h

theorem listMin_le (l : List ℚ) (x : ℚ) (h : x ∈ l) : listMin l ≤ x :=
  foldl_min_le_mem l _ x h

theorem rowWidth_nonneg (row : List Box) (hne : row ≠ [])
    (hwf : ∀ b ∈ row, b.1.x0 ≤ b.1.x1) : 0 ≤ rowWidth row := by
  obtain ⟨b0, hb0⟩ : ∃ b, b ∈ row := by
    cases row with
    | nil => exact absurd rfl hne
    | cons b bs => exact ⟨b, List.mem_cons_self _ _⟩
  have h1 : listMin (row.map (fun b => b.1.x0)) ≤ b0.1.x0 :=
    listMin_le _ _ (List.mem_map_of_mem _ hb0)
  have h2 : b0.1.x1 ≤ listMax (row.map (fun b => b.1.x1)) :=
    listMax_ge _ _ (List.mem_map_of_mem _ hb0)
  have h3 := hwf b0 hb0
  unfold rowWidth
  linarith

theorem groupRowsAux_ne (bs : List Box) : ∀ cur, groupRowsAux cur bs ≠ [] := by
  induction bs with
  | nil => intro cur; simp [groupRowsAux]
  | cons b bs ih =>
    intro cur
    simp only [groupRowsAux]
    split
    · exact ih _
    · simp

theorem groupRowsAux_rows_ne (bs : List Box) :
    ∀ cur, cur ≠ [] → ∀ row ∈ groupRowsAux cur bs, row ≠ [] := by
  induction bs with
  | nil =>
    intro cur hc row hr
    simp only [groupRowsAux, List.mem_singleton] at hr
    subst hr
    exact hc
  | cons b bs ih =>
    intro cur hc row hr
    simp only [groupRowsAux] at hr
    split at hr
    · exact ih _ (by simp) row hr
    · rcases List.mem_cons.1 hr with rfl | hr
      · exact hc
      · exact ih [b] (by simp) row hr

theorem groupRows_rows_ne (bs : List Box) : ∀ row ∈ groupRows bs, row ≠ [] := by
  cases bs with
  | nil => intro row hr; simp [groupRows] at hr
  | cons b bs => exact groupRowsAux_rows_ne bs [b] (by simp)

theorem groupRows_mem_mem (bs : List Box) (row : List Box) (b : Box)
    (hrow : row ∈ groupRows bs) (hb : b ∈ row) : b ∈ bs := by
  have := List.mem_flatten.2 ⟨row, hrow, hb⟩
  rwa [groupRows_flatten] at this

theorem totalRowWidth_nonneg (rows : List (List Box))
    (h : ∀ row ∈ rows, 0 ≤ rowWidth row) : 0 ≤ totalRowWidth rows := by
  unfold totalRowWidth
  apply List.sum_nonneg
  intro x hx
  obtain ⟨row, hrow, rfl⟩ := List.mem_map.1 hx
  exact h row hrow

theorem pyRound_nonneg (q : ℚ) (h : 0 ≤ q) : 0 ≤ pyRound q := by
  have hf : 0 ≤ q.floor := Rat.le_floor.2 (by exact_mod_cast h)
  unfold pyRound
  dsimp only
  split
  · exact hf
  · split
    · omega
    · split
      · exact hf
      · omega

theorem distRows_head_ne (gt : List (List Char)) (tw : ℚ) (row0 : List Box)
    (rest : List (List Box)) (hgt : gt ≠ [])
    (hcount : 0 ≤ pyRound ((gt.length : ℚ) * (rowWidth row0 / tw))) :
    distRows gt tw (row0 :: rest) 0 ≠ [] := by
  have hgtE : gt.isEmpty = false := by
    cases gt with
    | nil => exact absurd rfl hgt
    | cons w ws => rfl
  by_cases htw : tw = 0
  · simp only [distRows, if_pos htw, hgtE, Bool.false_eq_true, if_false]
    simp
  · simp only [distRows, if_neg htw]
    cases rest with
    | nil =>
      have hfrom : pySliceFrom gt (0 : ℤ) = gt := by
        have h0 : (0 : ℤ) = ((0 : Nat) : ℤ) := rfl
        rw [h0, pySliceFrom_natCast, List.drop_zero]
      simp only [List.isEmpty_nil, if_true, hfrom, hgtE, Bool.false_eq_true, if_false]
      simp
    | cons r1 r2 =>
      simp only [List.isEmpty_cons, Bool.false_eq_true, if_false]
      by_cases hz : pyRound ((gt.length : ℚ) * (rowWidth row0 / tw)) = 0
      · have hcond : pyRound ((gt.length : ℚ) * (rowWidth row0 / tw)) = 0 ∧
            0 < gt.length ∧ (0 : ℤ) < (gt.length : ℤ) := by
          refine ⟨hz, List.length_pos.2 hgt, ?_⟩
          have := List.length_pos.2 hgt
          omega
        rw [if_pos hcond]
        have hchunk : pySlice gt 0 ((0 : ℤ) + 1) ≠ [] := by
          have h1 : ((0 : ℤ) + 1) = (1 : ℤ) := by norm_num
          rw [h1]
          exact pySlice_front_ne gt hgt 1 le_rfl
        have hchE : (pySlice gt 0 ((0 : ℤ) + 1)).isEmpty = false := by
          cases hc : pySlice gt 0 ((0 : ℤ) + 1) with
          | nil => exact absurd hc hchunk
          | cons w ws => rfl
        rw [hchE]
        simp
      · rw [if_neg (show ¬(pyRound ((gt.length : ℚ) * (rowWidth row0 / tw)) = 0 ∧
            0 < gt.length ∧ (0 : ℤ) < (gt.length : ℤ)) from fun hcon => hz hcon.1)]
        have hone : 1 ≤ pyRound ((gt.length : ℚ) * (rowWidth row0 / tw)) := by omega
        have hchunk : pySlice gt 0
            ((0 : ℤ) + pyRound ((gt.length : ℚ) * (rowWidth row0 / tw))) ≠ [] := by
          rw [zero_add]
          exact pySlice_front_ne gt hgt _ hone
        have hchE : (pySlice gt 0
            ((0 : ℤ) + pyRound ((gt.length : ℚ) * (rowWidth row0 / tw)))).isEmpty
              = false := by
          cases hc : pySlice gt 0
              ((0 : ℤ) + pyRound ((gt.length : ℚ) * (rowWidth row0 / tw))) with
          | nil => exact absurd hc hchunk
          | cons w ws => rfl
        rw [hchE]
        simp

theorem distributeGap_ne (gb : List Box) (gt : List (List Char))
    (hgb : gb ≠ []) (hgt : gt ≠ [])
    (hwf : ∀ b ∈ gb, b.1.x0 ≤ b.1.x1) : distributeGap gb gt ≠ [] := by
  simp only [distributeGap]
  obtain ⟨row0, rest, hreq⟩ : ∃ row0 rest, groupRows gb = row0 :: rest := by
    cases hr : groupRows gb with
    | nil =>
      exfalso
      cases gb with
      | nil => exact hgb rfl
      | cons b bs => exact groupRowsAux_ne bs [b] hr
    | cons r rs => exact ⟨r, rs, rfl⟩
  rw [hreq]
  apply distRows_head_ne _ _ _ _ hgt
  have hrow0 : row0 ∈ groupRows gb := by rw [hreq]; exact List.mem_cons_self _ _
  have hrowwf : ∀ b ∈ row0, b.1.x0 ≤ b.1.x1 := fun b hb =>
    hwf b (groupRows_mem_mem gb row0 b hrow0 hb)
  apply pyRound_nonneg
  apply mul_nonneg (by positivity)
  apply div_nonneg
  · exact rowWidth_nonneg row0 (groupRows_rows_ne gb row0 hrow0) hrowwf
  · rw [← hreq]
    apply totalRowWidth_nonneg
    intro row hrow
    exact rowWidth_nonneg row (groupRows_rows_ne gb row hrow)
      (fun b hb => hwf b (groupRows_mem_mem gb row b hrow hb))

theorem isFalsy_tokens (inp : LLMInput) (h : isFalsy inp = true) :
    wsSplit (fullTextOf inp) = [] := by
  cases inp with
  | str s =>
    cases s with
    | nil => decide
    | cons c cs => simp [isFalsy] at h
  | lines ls =>
    cases ls with
    | nil => decide
    | cons l lls => simp [isFalsy] at h

/-- C2 (amended): when the Anchor Matcher accepts zero anchors on a
non-empty detection list and a content text with at least one token (with
well-formed box rects, `x0 ≤ x1`), `align_text` does NOT return the
single full-page fallback element: the whole page becomes one gap and the
(non-empty) partial gap-row reconstruction is returned instead.  The
fallback branch requires the reconstruction output to be empty, which
cannot happen with at least one token. -/
theorem C2_zero_anchors_returns_reconstruction (sd : List Box) (inp : LLMInput)
    (hwf : ∀ b ∈ sd, b.1.x0 ≤ b.1.x1)
    (hsd : sd ≠ [])
    (htok : wsSplit (fullTextOf inp) ≠ [])
    (hanch : findAnchors sd (wsSplit (fullTextOf inp)) = []) :
    alignText sd inp = distributeGap sd (wsSplit (fullTextOf inp)) ∧
      alignText sd inp ≠ [] := by
  have hne := distributeGap_ne sd (wsSplit (fullTextOf inp)) hsd htok hwf
  have hfalsy : isFalsy inp = false := by
    cases hf : isFalsy inp
    · rfl
    · exact absurd (isFalsy_tokens inp hf) htok
  have htokE : (wsSplit (fullTextOf inp)).isEmpty = false := by
    cases hc : wsSplit (fullTextOf inp) with
    | nil => exact absurd hc htok
    | cons w ws => rfl
  have hsdE : sd.isEmpty = false := by
    cases sd with
    | nil => exact absurd rfl hsd
    | cons b bs => rfl
  have hdgE : (distributeGap sd (wsSplit (fullTextOf inp))).isEmpty = false := by
    cases hc : distributeGap sd (wsSplit (fullTextOf inp)) with
    | nil => exact absurd hc hne
    | cons e es => rfl
  have hloop : reconstructLoop (wsSplit (fullTextOf inp)) sd
      [⟨sd.length, (wsSplit (fullTextOf inp)).length, none⟩] (-1) (-1) []
      = distributeGap sd (wsSplit (fullTextOf inp)) := by
    simp only [reconstructLoop, pySlice_all, htokE, hsdE, Bool.not_false, if_true,
      List.nil_append]
  have hmain : alignText sd inp = distributeGap sd (wsSplit (fullTextOf inp)) := by
    unfold alignText
    rw [hfalsy]
    simp only [Bool.false_eq_true, if_false, htokE, hanch, List.map_nil,
      List.nil_append, hloop, hdgE, hsdE, Bool.not_false, Bool.false_and]
  exact ⟨hmain, hmain ▸ hne⟩

set_option maxRecDepth 200000 in
/-- C2 counterexample: one box whose text matches nothing (zero anchors),
non-empty boxes, two content tokens — the claim demands the single
full-page element `([0,0,1,1], "ab cd\n")`, but `align_text` returns the
gap-row reconstruction `([rect of the box], "ab cd")` instead. -/
theorem C2_fallback_counterexample :
    findAnchors [(⟨1/10, 1/10, 2/5, 1/5⟩, ['z'])] (wsSplit "ab cd".toList) = [] ∧
    alignText [(⟨1/10, 1/10, 2/5, 1/5⟩, ['z'])] (.str "ab cd".toList)
      = [(⟨1/10, 1/10, 2/5, 1/5⟩, "ab cd".toList)] ∧
    alignText [(⟨1/10, 1/10, 2/5, 1/5⟩, ['z'])] (.str "ab cd".toList)
      ≠ [(⟨0, 0, 1, 1⟩, "ab cd".toList ++ ['\n'])] := by
  refine ⟨?_, ?_, ?_⟩ <;> with_unfolding_all decide

set_option maxRecDepth 200000 in
/-- Witness for C2 (amended) at the concrete zero-anchor input. -/
theorem C2_zero_anchors_witness :
    alignText [(⟨1/10, 1/10, 2/5, 1/5⟩, ['z'])] (.str "ab cd".toList)
        = distributeGap [(⟨1/10, 1/10, 2/5, 1/5⟩, ['z'])]
            (wsSplit (fullTextOf (.str "ab cd".toList))) ∧
      alignText [(⟨1/10, 1/10, 2/5, 1/5⟩, ['z'])] (.str "ab cd".toList) ≠ [] :=
  C2_zero_anchors_returns_reconstruction [(⟨1/10, 1/10, 2/5, 1/5⟩, ['z'])]
    (.str "ab cd".toList) (by with_unfolding_all decide) (by decide) (by decide)
    (by with_unfolding_all decide)

theorem joinSpace_single (w : List Char) : joinSpace [w] = w := rfl

theorem joinSpace_cons_cons (w w2 : List Char) (ws2 : List (List Char)) :
    joinSpace (w :: w2 :: ws2) = w ++ ' ' :: joinSpace (w2 :: ws2) := rfl

theorem wsSplitAux_ok : ∀ (s acc : List Char), (∀ c ∈ acc, c.isWhitespace = false) →
    ∀ w ∈ wsSplitAux s acc, w ≠ [] ∧ wsFree w := by
  intro s
  induction s with
  | nil =>
    intro acc hacc w hw
    simp only [wsSplitAux] at hw
    by_cases he : acc.isEmpty = true
    · rw [if_pos he] at hw
      cases hw
    · rw [if_neg he] at hw
      rcases List.mem_singleton.1 hw with rfl
      have hane : acc ≠ [] := fun hc => he (by rw [hc]; rfl)
      refine ⟨fun hc => hane (by simpa using congrArg List.reverse hc), ?_⟩
      intro c hc
      exact hacc c (List.mem_reverse.1 hc)
  | cons c cs ih =>
    intro acc hacc w hw
    simp only [wsSplitAux] at hw
    by_cases hws : c.isWhitespace = true
    · rw [if_pos hws] at hw
      by_cases he : acc.isEmpty = true
      · rw [if_pos he] at hw
        exact ih [] (by simp) w hw
      · rw [if_neg he] at hw
        rcases List.mem_cons.1 hw with rfl | hw
        · have hane : acc ≠ [] := fun hc => he (by rw [hc]; rfl)
          refine ⟨fun hc => hane (by simpa using congrArg List.reverse hc), ?_⟩
          intro d hd
          exact hacc d (List.mem_reverse.1 hd)
        · exact ih [] (by simp) w hw
    · rw [if_neg hws] at hw
      refine ih (c :: acc) ?_ w hw
      intro d hd
      rcases List.mem_cons.1 hd with rfl | hd
      · exact Bool.eq_false_iff.mpr hws
      · exact hacc d hd

theorem wsSplit_ok (s : List Char) : tokensOk (wsSplit s) :=
  fun w hw => wsSplitAux_ok s [] (by simp) w hw

theorem wsSplitAux_append : ∀ (w t acc : List Char), wsFree w →
    wsSplitAux (w ++ t) acc = wsSplitAux t (w.reverse ++ acc) := by
  intro w
  induction w with
  | nil => intro t acc _; simp
  | cons c cw ih =>
    intro t acc hw
    have hc : c.isWhitespace = false := hw c (List.mem_cons_self _ _)
    simp only [List.cons_append, wsSplitAux, hc, Bool.false_eq_true, if_false,
      List.append_eq]
    rw [ih t (c :: acc) (fun d hd => hw d (List.mem_cons_of_mem _ hd))]
    congr 1
    simp [List.reverse_cons]

theorem wsSplit_word_append (w t : List Char) (hne : w ≠ []) (hw : wsFree w)
    (ht : wsBoundary t) : wsSplit (w ++ t) = w :: wsSplit t := by
  unfold wsSplit
  rw [wsSplitAux_append w t [] hw]
  have hrev : (w.reverse ++ []).isEmpty = false := by
    rw [List.append_nil]
    cases hc : w.reverse with
    | nil => exact absurd (by simpa using congrArg List.reverse hc) hne
    | cons x xs => rfl
  rcases ht with rfl | ⟨c, t', rfl, hc⟩
  · simp only [wsSplitAux, hrev, Bool.false_eq_true, if_false]
    simp
  · simp only [wsSplitAux, hc, if_true, hrev, Bool.false_eq_true, if_false]
    simp

theorem wsSplit_ws_cons (c : Char) (x : List Char) (hc : c.isWhitespace = true) :
    wsSplit (c :: x) = wsSplit x := by
  unfold wsSplit
  simp only [wsSplitAux, hc, if_true, List.isEmpty_nil]

theorem wsSplit_joinSpace_append : ∀ (ws : List (List Char)) (t : List Char),
    tokensOk ws → wsBoundary t →
    wsSplit (joinSpace ws ++ t) = ws ++ wsSplit t := by
  intro ws
  induction ws with
  | nil => intro t _ _; simp [joinSpace]
  | cons w ws ih =>
    intro t hok ht
    have hw := hok w (List.mem_cons_self _ _)
    cases ws with
    | nil =>
      rw [joinSpace_single]
      rw [wsSplit_word_append w t hw.1 hw.2 ht]
      rfl
    | cons w2 ws2 =>
      rw [joinSpace_cons_cons, List.append_assoc]
      rw [show ((' ' :: joinSpace (w2 :: ws2)) ++ t) = ' ' :: (joinSpace (w2 :: ws2) ++ t)
        from rfl]
      rw [wsSplit_word_append w (' ' :: (joinSpace (w2 :: ws2) ++ t)) hw.1 hw.2
        (Or.inr ⟨' ', joinSpace (w2 :: ws2) ++ t, rfl, by decide⟩)]
      rw [wsSplit_ws_cons ' ' _ (by decide)]
      rw [ih t (fun u hu => hok u (List.mem_cons_of_mem _ hu)) ht]
      rfl

theorem wsSplit_joinSpace (ws : List (List Char)) (hok : tokensOk ws) :
    wsSplit (joinSpace ws) = ws := by
  have h := wsSplit_joinSpace_append ws [] hok (Or.inl rfl)
  rw [List.append_nil] at h
  rw [h]
  rw [show wsSplit [] = [] from rfl, List.append_nil]

theorem wsSplit_wrapText (ws : List (List Char)) (hok : tokensOk ws) :
    wsSplit (wrapText (joinSpace ws)) = ws := by
  unfold wrapText
  split
  · have h := wsSplit_joinSpace_append ws ['\n'] hok
      (Or.inr ⟨'\n', [], rfl, by decide⟩)
    have h2 : wsSplit ['\n'] = [] := by decide
    rw [h2, List.append_nil] at h
    exact h
  · exact wsSplit_joinSpace ws hok

theorem wsSplit_single (w : List Char) (hne : w ≠ []) (hw : wsFree w) :
    wsSplit w = [w] := by
  have hok : tokensOk [w] := by
    intro u hu
    rcases List.mem_singleton.1 hu with rfl
    exact ⟨hne, hw⟩
  have h := wsSplit_joinSpace [w] hok
  rw [joinSpace_single] at h
  exact h

theorem outTokens_append (a b : List (Rect × List Char)) :
    outTokens (a ++ b) = outTokens a ++ outTokens b := by
  simp [outTokens]

theorem take_drop_concat {α : Type} (l : List α) (a c : Nat) :
    ((l.take (a + c)).drop a) ++ l.drop (a + c) = l.drop a := by
  rw [List.drop_take]
  have h1 : a + c - a = c := by omega
  rw [h1]
  have h2 : l.drop (a + c) = (l.drop a).drop c := by
    rw [List.drop_drop]
  rw [h2]
  exact List.take_append_drop c (l.drop a)

theorem drop_append_middle {α : Type} (l : List α) (a m : Nat) (h : a ≤ m) :
    ((l.take m).drop a) ++ l.drop m = l.drop a := by
  conv_rhs => rw [← List.take_append_drop m l]
  rw [List.drop_append_eq_append_drop]
  congr 1
  rcases le_or_lt a (l.take m).length with hle | hlt
  · have : a - (l.take m).length = 0 := by omega
    rw [this, List.drop_zero]
  · have hlen : (l.take m).length = min m l.length := List.length_take m l
    have hml : l.length < a := by omega
    rw [List.drop_eq_nil_of_le (show l.length ≤ m by omega)]
    simp

theorem rowWidth_pos (row : List Box) (hne : row ≠ [])
    (hwf : ∀ b ∈ row, b.1.x0 < b.1.x1) : 0 < rowWidth row := by
  obtain ⟨b0, hb0⟩ : ∃ b, b ∈ row := by
    cases row with
    | nil => exact absurd rfl hne
    | cons b bs => exact ⟨b, List.mem_cons_self _ _⟩
  have h1 : listMin (row.map (fun b => b.1.x0)) ≤ b0.1.x0 :=
    listMin_le _ _ (List.mem_map_of_mem _ hb0)
  have h2 : b0.1.x1 ≤ listMax (row.map (fun b => b.1.x1)) :=
    listMax_ge _ _ (List.mem_map_of_mem _ hb0)
  have h3 := hwf b0 hb0
  unfold rowWidth
  linarith

theorem totalRowWidth_pos (rows : List (List Box)) (hne : rows ≠ [])
    (hpos : ∀ row ∈ rows, 0 < rowWidth row) : 0 < totalRowWidth rows := by
  cases rows with
  | nil => exact absurd rfl hne
  | cons row rest =>
    have h1 : 0 < rowWidth row := hpos row (List.mem_cons_self _ _)
    have h2 : 0 ≤ totalRowWidth rest :=
      totalRowWidth_nonneg rest (fun r hr => le_of_lt (hpos r (List.mem_cons_of_mem _ hr)))
    have : totalRowWidth (row :: rest) = rowWidth row + totalRowWidth rest := by
      simp [totalRowWidth]
    rw [this]
    linarith

theorem mem_pySlice {α : Type} (l : List α) (a b : ℤ) (x : α)
    (h : x ∈ pySlice l a b) : x ∈ l :=
  List.mem_of_mem_take (List.mem_of_mem_drop h)

theorem outTokens_chunk_elem (row : List Box) (chunk : List (List Char))
    (hok : tokensOk chunk) :
    outTokens (if chunk.isEmpty = true then []
      else [(unionRect row, wrapText (joinSpace chunk))]) = chunk := by
  by_cases hch : chunk.isEmpty = true
  · rw [if_pos hch]
    rw [List.isEmpty_iff.1 hch]
    rfl
  · rw [if_neg hch]
    simp [outTokens, wsSplit_wrapText _ hok]

theorem distRows_tokens (gt : List (List Char)) (tw : ℚ) (hok : tokensOk gt)
    (htw : tw ≠ 0) :
    ∀ (rows : List (List Box)), rows ≠ [] →
    (∀ row ∈ rows, 0 ≤ pyRound ((gt.length : ℚ) * (rowWidth row / tw))) →
    ∀ (ts : ℤ), 0 ≤ ts →
    outTokens (distRows gt tw rows ts) = gt.drop ts.toNat := by
  intro rows
  induction rows with
  | nil => intro h; exact absurd rfl h
  | cons row rest ih =>
    intro _ hcounts ts hts
    simp only [distRows, if_neg htw]
    cases rest with
    | nil =>
      have hfrom : pySliceFrom gt ts = gt.drop ts.toNat := by
        have h := pySliceFrom_natCast gt ts.toNat
        rw [show ((ts.toNat : Nat) : ℤ) = ts by omega] at h
        exact h
      simp only [List.isEmpty_nil, if_true, hfrom]
      have hchok : tokensOk (gt.drop ts.toNat) := fun w hw =>
        hok w (List.mem_of_mem_drop hw)
      exact outTokens_chunk_elem row _ hchok
    | cons r2 rest2 =>
      simp only [List.isEmpty_cons, Bool.false_eq_true, if_false]
      have hcount0 : 0 ≤ pyRound ((gt.length : ℚ) * (rowWidth row / tw)) :=
        hcounts row (List.mem_cons_self _ _)
      set count := if pyRound ((gt.length : ℚ) * (rowWidth row / tw)) = 0 ∧
          0 < gt.length ∧ ts < (gt.length : ℤ) then 1
        else pyRound ((gt.length : ℚ) * (rowWidth row / tw)) with hcdef
      have hcount : 0 ≤ count := by
        rw [hcdef]
        split
        · omega
        · exact hcount0
      have hchunk : pySlice gt ts (ts + count) =
          (gt.take (ts.toNat + count.toNat)).drop ts.toNat := by
        have h := pySlice_natCast gt ts.toNat (ts.toNat + count.toNat)
        rw [show (((ts.toNat + count.toNat) : Nat) : ℤ) = ts + count by
          push_cast; omega] at h
        rw [show ((ts.toNat : Nat) : ℤ) = ts by omega] at h
        exact h
      rw [outTokens_append, hchunk]
      have hchok : tokensOk ((gt.take (ts.toNat + count.toNat)).drop ts.toNat) :=
        fun w hw => hok w (List.mem_of_mem_take (List.mem_of_mem_drop hw))
      rw [outTokens_chunk_elem row _ hchok]
      rw [ih (by simp) (fun r hr => hcounts r (List.mem_cons_of_mem _ hr))
        (ts + count) (by omega)]
      have htsn : (ts + count).toNat = ts.toNat + count.toNat := by omega
      rw [htsn]
      exact take_drop_concat gt ts.toNat count.toNat

theorem distributeGap_tokens (gb : List Box) (gt : List (List Char))
    (hgb : gb ≠ []) (hok : tokensOk gt)
    (hwf : ∀ b ∈ gb, b.1.x0 < b.1.x1) :
    outTokens (distributeGap gb gt) = gt := by
  simp only [distributeGap]
  have hrows : groupRows gb ≠ [] := by
    cases gb with
    | nil => exact absurd rfl hgb
    | cons b bs => exact groupRowsAux_ne bs [b]
  have hpos : ∀ row ∈ groupRows gb, 0 < rowWidth row := fun row hrow =>
    rowWidth_pos row (groupRows_rows_ne gb row hrow)
      (fun b hb => hwf b (groupRows_mem_mem gb row b hrow hb))
  have htw : 0 < totalRowWidth (groupRows gb) := totalRowWidth_pos _ hrows hpos
  have h := distRows_tokens gt (totalRowWidth (groupRows gb)) hok (ne_of_gt htw)
    (groupRows gb) hrows
    (fun row hrow => pyRound_nonneg _ (mul_nonneg (by positivity)
      (div_nonneg (le_of_lt (hpos row hrow)) (le_of_lt htw))))
    0 le_rfl
  rw [h]
  rfl

theorem windowOf_getD (tokens : List (List Char)) (s offset : Nat)
    (h : offset < (windowOf tokens s).length) :
    (windowOf tokens s).getD offset [] = tokens.getD (s + offset) [] ∧
      s + offset < tokens.length := by
  have hlen : (windowOf tokens s).length =
      min tokens.length (s + windowSize) - s := by
    unfold windowOf
    rw [List.length_drop, List.length_take]
    omega
  have hbound : s + offset < tokens.length := by omega
  constructor
  · unfold windowOf at h ⊢
    rw [List.getD_eq_getElem _ _ h, List.getD_eq_getElem _ _ hbound]
    rw [List.getElem_drop]
    simp [List.getElem_take]
  · exact hbound

theorem entriesOk_cons (tokens : List (List Char)) (start : Nat) (e : MatchEntry)
    (rest : List MatchEntry) (hrest : rest ≠ [])
    (h1 : start ≤ e.llm_idx) (h2 : e.llm_idx < tokens.length)
    (h3 : ∃ r, e.payload = some (r, tokens.getD e.llm_idx []))
    (h4 : entriesOk tokens (e.llm_idx + 1) rest) :
    entriesOk tokens start (e :: rest) := by
  cases rest with
  | nil => exact absurd rfl hrest
  | cons f fs => exact ⟨h1, h2, h3, h4⟩

theorem findAnchors_entriesOk (tokens : List (List Char)) :
    ∀ (boxes : List Box) (bI sI sentB : Nat), sI ≤ tokens.length →
    entriesOk tokens sI
      ((findAnchorsAux tokens boxes bI sI).map
        (fun a => (⟨a.box_idx, a.llm_idx, some (a.rect, a.text)⟩ : MatchEntry)) ++
        [⟨sentB, tokens.length, none⟩]) := by
  intro boxes
  induction boxes with
  | nil =>
    intro bI sI sentB hsI
    simp only [findAnchorsAux, List.map_nil, List.nil_append]
    exact ⟨rfl, rfl, hsI⟩
  | cons bx rest ih =>
    intro bI sI sentB hsI
    obtain ⟨rect, btext⟩ := bx
    simp only [findAnchorsAux]
    split
    · exact ih _ _ _ hsI
    · split
      · exact ih _ _ _ hsI
      · split
        · exact ih _ _ _ hsI
        · rename_i score offset hm
          split
          · rename_i hs
            have hoff : offset < ((windowOf tokens sI).map cleanText).length :=
              extractOne_idx_lt _ _ _ _ hm
            rw [List.length_map] at hoff
            obtain ⟨hgetD, hbound⟩ := windowOf_getD tokens sI offset hoff
            simp only [List.map_cons, List.cons_append]
            apply entriesOk_cons
            · simp
            · exact Nat.le_add_right _ _
            · exact hbound
            · exact ⟨rect, by rw [show (⟨bI, sI + offset,
                some (rect, (windowOf tokens sI).getD offset [])⟩ :
                  MatchEntry).payload = some (rect, (windowOf tokens sI).getD offset [])
                from rfl, hgetD]⟩
            · exact ih _ _ _ (Nat.succ_le_of_lt hbound)
          · exact ih _ _ _ hsI

theorem outTokens_acc1 (tokens : List (List Char)) (sd : List Box)
    (hok : tokensOk tokens) (hwf : ∀ b ∈ sd, b.1.x0 < b.1.x1)
    (gT : List (List Char)) (gB : List Box)
    (hgTsub : ∀ w ∈ gT, w ∈ tokens) (hgBsub : ∀ b ∈ gB, b ∈ sd)
    (acc : List (Rect × List Char)) :
    outTokens (if (!gT.isEmpty) = true then
        (if (!gB.isEmpty) = true then acc ++ distributeGap gB gT
         else acc ++ [synthElem acc gT])
      else acc) = outTokens acc ++ gT := by
  by_cases hTe : gT.isEmpty = true
  · have hTnil := List.isEmpty_iff.1 hTe
    simp [hTe, hTnil]
  · have hTf : gT.isEmpty = false := by
      cases hc : gT.isEmpty
      · rfl
      · exact absurd hc hTe
    have hTne : gT ≠ [] := by
      intro hc
      rw [hc] at hTf
      simp at hTf
    have hgtok : tokensOk gT := fun w hw => hok w (hgTsub w hw)
    by_cases hBe : gB.isEmpty = true
    · simp only [hTf, Bool.not_false, if_true, hBe, Bool.not_true, Bool.false_eq_true,
        if_false]
      rw [outTokens_append]
      congr 1
      rw [show [synthElem acc gT] =
        [(specSynthRect (acc.getLast?.map Prod.fst), joinSpace gT)] from by
          rw [synthElem_eq_spec]]
      simp [outTokens, wsSplit_joinSpace gT hgtok]
    · have hBf : gB.isEmpty = false := by
        cases hc : gB.isEmpty
        · rfl
        · exact absurd hc hBe
      have hBne : gB ≠ [] := by
        intro hc
        rw [hc] at hBf
        simp at hBf
      simp only [hTf, hBf, Bool.not_false, if_true]
      rw [outTokens_append, distributeGap_tokens gB gT hBne hgtok
        (fun b hb => hwf b (hgBsub b hb))]

theorem reconstructLoop_tokens (tokens : List (List Char)) (sd : List Box)
    (hok : tokensOk tokens)
    (hwf : ∀ b ∈ sd, b.1.x0 < b.1.x1) :
    ∀ (entries : List MatchEntry) (prevL prevB : ℤ) (acc : List (Rect × List Char)),
      0 ≤ prevL + 1 →
      entriesOk tokens (prevL + 1).toNat entries →
      outTokens (reconstructLoop tokens sd entries prevL prevB acc)
        = outTokens acc ++ tokens.drop (prevL + 1).toNat := by
  intro entries
  induction entries with
  | nil =>
    intro prevL prevB acc hP hE
    exact absurd hE (by simp [entriesOk])
  | cons e rest ih =>
    intro prevL prevB acc hP hE
    have hgt : pySlice tokens (prevL + 1) (e.llm_idx : ℤ)
        = (tokens.take e.llm_idx).drop (prevL + 1).toNat := by
      have h := pySlice_natCast tokens (prevL + 1).toNat e.llm_idx
      rw [show (((prevL + 1).toNat : Nat) : ℤ) = prevL + 1 by omega] at h
      exact h
    have hgtsub : ∀ w ∈ pySlice tokens (prevL + 1) (e.llm_idx : ℤ), w ∈ tokens :=
      fun w hw => mem_pySlice _ _ _ _ hw
    have hgbsub : ∀ b ∈ pySlice sd (prevB + 1) (e.box_idx : ℤ), b ∈ sd :=
      fun b hb => mem_pySlice _ _ _ _ hb
    cases rest with
    | nil =>
      obtain ⟨hlen, hpay, hstart⟩ := hE
      simp only [reconstructLoop, hpay]
      rw [outTokens_acc1 tokens sd hok hwf _ _ hgtsub hgbsub acc]
      congr 1
      rw [hgt, hlen, List.take_length]
    | cons f fs =>
      obtain ⟨hstart, hlt, ⟨r, hpay⟩, hrestOk⟩ := hE
      rw [reconstructLoop]
      rw [hpay]
      dsimp only
      rw [ih (e.llm_idx : ℤ) (e.box_idx : ℤ) _ (by omega)
        (by rw [show ((e.llm_idx : ℤ) + 1).toNat = e.llm_idx + 1 by omega]
            exact hrestOk)]
      rw [outTokens_append, outTokens_acc1 tokens sd hok hwf _ _ hgtsub hgbsub acc]
      have htokmem : tokens.getD e.llm_idx [] ∈ tokens := by
        rw [List.getD_eq_getElem _ _ hlt]
        exact List.getElem_mem _
      have htokok := hok _ htokmem
      have hsingle : outTokens [(r, tokens.getD e.llm_idx [])] =
          [tokens.getD e.llm_idx []] := by
        unfold outTokens
        rw [List.map_cons, List.map_nil, List.flatten_cons, List.flatten_nil,
          List.append_nil]
        exact wsSplit_single _ htokok.1 htokok.2
      rw [hsingle, hgt]
      rw [List.append_assoc, List.append_assoc]
      congr 1
      rw [show ((e.llm_idx : ℤ) + 1).toNat = e.llm_idx + 1 by omega]
      rw [← drop_append_middle tokens (prevL + 1).toNat e.llm_idx
        (by omega : (prevL + 1).toNat ≤ e.llm_idx)]
      congr 1
      rw [List.drop_eq_getElem_cons hlt, List.getD_eq_getElem _ _ hlt]
      rfl

/-- C3 (amended): for every input whose content has at least one token and
whose detection boxes all have strictly positive width (so no gap can have
zero total row width), the sequence of whitespace-split tokens of all
emitted elements, in output order, equals the input token sequence exactly
— no token lost, none duplicated.  (The zero-width counterexample shows
tokens ARE duplicated when a multi-row gap has zero total width, and with
zero tokens the passthrough returns the raw detections, so both
restrictions are necessary.) -/
theorem C3_token_conservation (sd : List Box) (inp : LLMInput)
    (hwf : ∀ b ∈ sd, b.1.x0 < b.1.x1)
    (htok : wsSplit (fullTextOf inp) ≠ []) :
    outTokens (alignText sd inp) = wsSplit (fullTextOf inp) := by
  have hok : tokensOk (wsSplit (fullTextOf inp)) := wsSplit_ok _
  have hfalsy : isFalsy inp = false := by
    cases hf : isFalsy inp
    · rfl
    · exact absurd (isFalsy_tokens inp hf) htok
  have htokE : (wsSplit (fullTextOf inp)).isEmpty = false := by
    cases hc : wsSplit (fullTextOf inp) with
    | nil => exact absurd hc htok
    | cons w ws => rfl
  have hloop := reconstructLoop_tokens (wsSplit (fullTextOf inp)) sd hok hwf
    ((findAnchors sd (wsSplit (fullTextOf inp))).map
      (fun a => (⟨a.box_idx, a.llm_idx, some (a.rect, a.text)⟩ : MatchEntry)) ++
      [⟨sd.length, (wsSplit (fullTextOf inp)).length, none⟩]) (-1) (-1) []
    (by norm_num)
    (by rw [show ((-1 : ℤ) + 1).toNat = 0 by norm_num]
        exact findAnchors_entriesOk (wsSplit (fullTextOf inp)) sd 0 0 sd.length
          (Nat.zero_le _))
  rw [show ((-1 : ℤ) + 1).toNat = 0 from by norm_num, List.drop_zero] at hloop
  have houtT : outTokens (reconstructLoop (wsSplit (fullTextOf inp)) sd
      ((findAnchors sd (wsSplit (fullTextOf inp))).map
        (fun a => (⟨a.box_idx, a.llm_idx, some (a.rect, a.text)⟩ : MatchEntry)) ++
        [⟨sd.length, (wsSplit (fullTextOf inp)).length, none⟩]) (-1) (-1) [])
      = wsSplit (fullTextOf inp) := by
    rw [hloop]
    rfl
  have hne : reconstructLoop (wsSplit (fullTextOf inp)) sd
      ((findAnchors sd (wsSplit (fullTextOf inp))).map
        (fun a => (⟨a.box_idx, a.llm_idx, some (a.rect, a.text)⟩ : MatchEntry)) ++
        [⟨sd.length, (wsSplit (fullTextOf inp)).length, none⟩]) (-1) (-1) [] ≠ [] := by
    intro hc
    rw [hc] at houtT
    exact htok houtT.symm
  have hneE : (reconstructLoop (wsSplit (fullTextOf inp)) sd
      ((findAnchors sd (wsSplit (fullTextOf inp))).map
        (fun a => (⟨a.box_idx, a.llm_idx, some (a.rect, a.text)⟩ : MatchEntry)) ++
        [⟨sd.length, (wsSplit (fullTextOf inp)).length, none⟩]) (-1) (-1) []).isEmpty
      = false := by
    cases hc : reconstructLoop (wsSplit (fullTextOf inp)) sd
        ((findAnchors sd (wsSplit (fullTextOf inp))).map
          (fun a => (⟨a.box_idx, a.llm_idx, some (a.rect, a.text)⟩ : MatchEntry)) ++
          [⟨sd.length, (wsSplit (fullTextOf inp)).length, none⟩]) (-1) (-1) [] with
    | nil => exact absurd hc hne
    | cons x xs => rfl
  unfold alignText
  rw [hfalsy]
  simp only [Bool.false_eq_true, if_false, htokE, hneE, Bool.false_and]
  exact houtT

set_option maxRecDepth 200000 in
/-- C3 counterexample: with two zero-width boxes on different lines and no
anchors, the whole-page gap has two rows of total width zero, so each row
receives ALL the gap tokens: the output token sequence is the input
duplicated, refuting exact conservation. -/
theorem C3_duplication_counterexample :
    outTokens (alignText [(⟨1/2, 1/10, 1/2, 3/20⟩, ['z']),
        (⟨1/2, 3/10, 1/2, 7/20⟩, ['z'])] (.str "ab cd".toList))
      = ["ab".toList, "cd".toList, "ab".toList, "cd".toList] ∧
    outTokens (alignText [(⟨1/2, 1/10, 1/2, 3/20⟩, ['z']),
        (⟨1/2, 3/10, 1/2, 7/20⟩, ['z'])] (.str "ab cd".toList))
      ≠ wsSplit (fullTextOf (.str "ab cd".toList)) := by
  refine ⟨?_, ?_⟩ <;> with_unfolding_all decide

set_option maxRecDepth 200000 in
/-- Witness for C3 at a positive-width, zero-anchor input. -/
theorem C3_token_conservation_witness :
    outTokens (alignText [(⟨1/10, 1/10, 2/5, 1/5⟩, ['z'])] (.str "ab cd".toList))
      = wsSplit (fullTextOf (.str "ab cd".toList)) :=
  C3_token_conservation [(⟨1/10, 1/10, 2/5, 1/5⟩, ['z'])] (.str "ab cd".toList)
    (by with_unfolding_all decide) (by decide)
